import Mathlib

/-!
Verification of the Bech32/Bech32m codec core wrapped by the pg_bech32
PostgreSQL extension, against its specification.

The repository source (`src/lib.rs`) is a thin shim: it parses the Hrp,
dispatches on the mode string, and forwards to the codec library.  The codec
itself (charset, bit regrouping, checksum engine, HRP validation, encoder,
decoder) is not part of the repository source, so it is modelled here from the
specification.  Strings are modelled as lists of character codes (`List Nat`),
bytes and quintets as `Nat` with explicit bounds.
-/

namespace PgBech32

/-- Modelled from the spec: ASCII uppercase letter test (codes 65..90);
digits and symbols do not count toward case. -/
def isUpperC (c : Nat) : Bool := 65 ≤ c && c ≤ 90

/-- Modelled from the spec: ASCII lowercase letter test (codes 97..122). -/
def isLowerC (c : Nat) : Bool := 97 ≤ c && c ≤ 122

/-- Modelled from the spec: ASCII case folding to lowercase. -/
def toLowerC (c : Nat) : Nat := if isUpperC c then c + 32 else c

/-- Modelled from the spec: ASCII case transform to uppercase. -/
def toUpperC (c : Nat) : Nat := if isLowerC c then c - 32 else c

/-- Whether a character-code string contains an ASCII uppercase letter. -/
def hasUpper (s : List Nat) : Bool := s.any isUpperC

/-- Whether a character-code string contains an ASCII lowercase letter. -/
def hasLower (s : List Nat) : Bool := s.any isLowerC

/-- Modelled from the spec (4.1): the 32-character alphabet
`qpzry9x8gf2tvdw0s3jn54khce6mua7l`, as ASCII codes, index = quintet value. -/
def CHARSET : List Nat :=
  [113, 112, 122, 114, 121, 57, 120, 56, 103, 102, 50, 116, 118, 100, 119, 48,
   115, 51, 106, 110, 53, 52, 107, 104, 99, 101, 54, 109, 117, 97, 55, 108]

/-- Modelled from the spec (4.1): map a quintet (0..31) to its alphabet
character code. -/
def charsetEncode (q : Nat) : Nat := CHARSET.getD q 0

/-- First index of `c` in a list, if present. -/
def lookupIdx : List Nat → Nat → Option Nat
  | [], _ => none
  | x :: xs, c => if x = c then some 0 else (lookupIdx xs c).map (· + 1)

/-- Modelled from the spec (4.1): case-insensitive alphabet lookup — fold the
character to lowercase, then look it up; `none` when not in the alphabet. -/
def charsetDecode (c : Nat) : Option Nat := lookupIdx CHARSET (toLowerC c)

/-- Big-endian bit decomposition of `n` into `w` bits (most significant
first). -/
def natBits (w n : Nat) : List Bool := (List.range w).map (fun i => n.testBit (w - 1 - i))

/-- Reassemble a big-endian bit list into a number. -/
def bitsToNat (bs : List Bool) : Nat := bs.foldl (fun a b => 2 * a + cond b 1 0) 0

/-- Slice a bit list into consecutive 5-bit groups, dropping a final partial
group. -/
def chunks5 : List Bool → List (List Bool)
  | b0 :: b1 :: b2 :: b3 :: b4 :: rest => [b0, b1, b2, b3, b4] :: chunks5 rest
  | _ => []

/-- Slice a bit list into consecutive 8-bit groups, dropping a final partial
group. -/
def chunks8 : List Bool → List (List Bool)
  | b0 :: b1 :: b2 :: b3 :: b4 :: b5 :: b6 :: b7 :: rest =>
      [b0, b1, b2, b3, b4, b5, b6, b7] :: chunks8 rest
  | _ => []

/-- Modelled from the spec (4.2): pack the byte sequence as a single
big-endian bitstream and slice it into 5-bit groups, zero-padding the final
group on the right when the total bit count is not a multiple of 5. -/
def bytesToQuintets (bs : List Nat) : List Nat :=
  let bits := (bs.map (natBits 8)).flatten
  let pad := (5 - bits.length % 5) % 5
  (chunks5 (bits ++ List.replicate pad false)).map bitsToNat

/-- Modelled from the spec (4.2): the padding error of `quintetsToBytes`. -/
inductive PaddingError
  | NonZeroPadding
deriving DecidableEq, Repr

/-- Modelled from the spec (4.2): concatenate the quintet bits, slice into
8-bit bytes, and discard the final partial group — but only if every leftover
bit is zero; otherwise fail with `NonZeroPadding`. -/
def quintetsToBytes (qs : List Nat) : Except PaddingError (List Nat) :=
  let bits := (qs.map (natBits 5)).flatten
  let keep := 8 * (bits.length / 8)
  if (bits.drop keep).all (fun b => b = false) then
    .ok ((chunks8 (bits.take keep)).map bitsToNat)
  else
    .error .NonZeroPadding

/-- Modelled from the spec (3): the closed checksum-variant enumeration. -/
inductive Variant
  | bech32
  | bech32m
  | noChecksum
deriving DecidableEq, Repr

/-- Modelled from the spec (3): the variant constant XORed into the checksum
(Bech32 = 1, Bech32m = 0x2bc830a3). -/
def variantConst : Variant → Nat
  | .bech32 => 1
  | .bech32m => 0x2bc830a3
  | .noChecksum => 0

/-- Whether a variant carries a checksum. -/
def checksummed : Variant → Bool
  | .noChecksum => false
  | _ => true

/-- Modelled from the spec (4.3): conditionally XOR the five 30-bit generator
constants into the accumulator, one for each set bit among the five bits shifted
off the top. -/
def genXor (b a : Nat) : Nat :=
  let a1 := if b.testBit 0 then a ^^^ 0x3b6a57b2 else a
  let a2 := if b.testBit 1 then a1 ^^^ 0x26508e6d else a1
  let a3 := if b.testBit 2 then a2 ^^^ 0x1ea119fa else a2
  let a4 := if b.testBit 3 then a3 ^^^ 0x3d4233dd else a3
  if b.testBit 4 then a4 ^^^ 0x2a1462b3 else a4

/-- Modelled from the spec (4.3): one polymod step over the 30-bit accumulator;
shift the top 5 bits off, shift in the new quintet, then apply the generator
XORs for the bits that were set. -/
def polymodStep (acc q : Nat) : Nat :=
  genXor (acc >>> 25) (((acc % 2 ^ 25) <<< 5) ^^^ q)

/-- Modelled from the spec (4.3): the polynomial remainder computation over a
quintet sequence, accumulator initialised to 1. -/
def polymod (qs : List Nat) : Nat := qs.foldl polymodStep 1

/-- Modelled from the spec (4.3): expand the Hrp into quintets — high 3 bits of
each character code, then a zero separator quintet, then the low 5 bits of each
character code. -/
def hrpExpand (hrp : List Nat) : List Nat :=
  hrp.map (fun c => c >>> 5) ++ [0] ++ hrp.map (fun c => c % 32)

/-- Modelled from the spec (4.3): compute the six checksum quintets — polymod
over `expand(hrp) ++ data ++ [0,0,0,0,0,0]`, XOR with the variant constant,
split the low 30 bits into six 5-bit groups, most significant first. -/
def computeChecksum (hrp : List Nat) (data : List Nat) (v : Variant) : List Nat :=
  let m := polymod (hrpExpand hrp ++ data ++ [0, 0, 0, 0, 0, 0]) ^^^ variantConst v
  (List.range 6).map (fun i => (m >>> (5 * (5 - i))) % 32)

/-- Modelled from the spec (4.3): verification recomputes polymod over the full
sequence (data including the real checksum, no zero placeholder) and succeeds
exactly when the raw result equals the variant constant; the NoChecksum variant
always verifies. -/
def verifyChecksum (hrp : List Nat) (dataWithChecksum : List Nat) (v : Variant) : Bool :=
  match v with
  | .noChecksum => true
  | _ => polymod (hrpExpand hrp ++ dataWithChecksum) == variantConst v

/-- Modelled from the spec (4.4): the Hrp error taxonomy. -/
inductive HrpError
  | EmptyHrp
  | TooLong
  | InvalidChar
  | MixedCase
deriving DecidableEq, Repr

/-- Modelled from the spec (4.4): Hrp validation — checked in order: non-empty;
length at most 83; every character in ASCII 33..126; characters not mixed-case
(zero uppercase letters or zero lowercase letters). -/
def validateHrp (s : List Nat) : Except HrpError (List Nat) :=
  if s.isEmpty then .error .EmptyHrp
  else if 83 < s.length then .error .TooLong
  else if !s.all (fun c => 33 ≤ c && c ≤ 126) then .error .InvalidChar
  else if hasUpper s && hasLower s then .error .MixedCase
  else .ok s

/-- Modelled from the spec (4.5): the encoder error taxonomy. -/
inductive EncodeError
  | Hrp (e : HrpError)
  | TooLong
deriving DecidableEq, Repr

/-- The ASCII code of the separator character `1`. -/
def sepChar : Nat := 49

/-- Modelled from the spec (4.5): encode — validate the Hrp; convert the data
bytes to quintets; when checksummed, fail with `TooLong` if the total output
length (hrp + 1 separator + data quintets + 6 checksum quintets) would exceed
90 characters, then compute the checksum over the lowercase Hrp and append it;
map all quintets through the charset; apply the uppercase transform to both the
Hrp and the mapped characters when `lower = false` and the original Hrp was
uppercase; assemble `hrp ++ [separator] ++ dataChars`. -/
def encode (hrp : List Nat) (data : List Nat) (v : Variant) (lower : Bool) :
    Except EncodeError (List Nat) :=
  match validateHrp hrp with
  | .error e => .error (.Hrp e)
  | .ok h =>
    let hl := h.map toLowerC
    let qs := bytesToQuintets data
    let chk := if checksummed v then computeChecksum hl qs v else []
    if checksummed v && decide (90 < h.length + 1 + qs.length + 6) then
      .error .TooLong
    else
      let chars := (qs ++ chk).map charsetEncode
      if lower then .ok (hl ++ sepChar :: chars)
      else if hasUpper h then
        .ok (h.map toUpperC ++ sepChar :: chars.map toUpperC)
      else .ok (h ++ sepChar :: chars)

/-- Modelled from the spec (4.6): the decoder error taxonomy. -/
inductive DecodeError
  | MixedCase
  | SeparatorNotFound
  | Hrp (e : HrpError)
  | InvalidCharacter
  | InvalidChecksum
  | NonZeroPadding
deriving DecidableEq, Repr

/-- Whether index `i` of `s` can serve as the separator: the character is `1`,
the prefix has 1..83 characters and the suffix at least 6. -/
def sepOK (s : List Nat) (i : Nat) : Bool :=
  s.getD i 0 == sepChar && 1 ≤ i && i ≤ 83 && i + 7 ≤ s.length

/-- Scan indices `n-1, n-2, ..., 0` for the rightmost admissible separator. -/
def findSepAux (s : List Nat) : Nat → Option (List Nat × List Nat)
  | 0 => none
  | i + 1 =>
    if sepOK s i then some (s.take i, s.drop (i + 1))
    else findSepAux s i

/-- Modelled from the spec (4.6): locate the separator as the rightmost `1`
such that the prefix is 1..83 characters and the suffix has at least 6
characters. -/
def findSep (s : List Nat) : Option (List Nat × List Nat) := findSepAux s s.length

/-- Decode every character of the data part through the alphabet; `none` as
soon as one character is not in the alphabet. -/
def decodeChars : List Nat → Option (List Nat)
  | [] => some []
  | c :: cs =>
    match charsetDecode c with
    | none => none
    | some q => (decodeChars cs).map (q :: ·)

/-- Modelled from the spec (4.6): decode — reject a mixed-case string; fold to
lowercase; locate the separator; validate the Hrp prefix; map the suffix
through the charset; verify the checksum trying the Bech32 constant then the
Bech32m constant, failing `InvalidChecksum` when neither matches; strip the
last 6 quintets and convert the rest to bytes, propagating `NonZeroPadding`. -/
def decode (s : List Nat) : Except DecodeError (List Nat × List Nat) :=
  if hasUpper s && hasLower s then .error .MixedCase
  else
    let sl := s.map toLowerC
    match findSep sl with
    | none => .error .SeparatorNotFound
    | some (hrp, rest) =>
      match validateHrp hrp with
      | .error e => .error (.Hrp e)
      | .ok _ =>
        match decodeChars rest with
        | none => .error .InvalidCharacter
        | some qs =>
          if verifyChecksum hrp qs .bech32 || verifyChecksum hrp qs .bech32m then
            match quintetsToBytes (qs.take (qs.length - 6)) with
            | .error _ => .error .NonZeroPadding
            | .ok bs => .ok (hrp, bs)
          else .error .InvalidChecksum

/-- Errors surfaced by the database-extension shim: each corresponds to a
panic site in `src/lib.rs`. -/
inductive ShimError
  | HrpParse (e : HrpError)
  | UnsupportedMode
  | EncodingFailed (e : EncodeError)
  | DecodeFailed (e : DecodeError)
deriving DecidableEq, Repr

/-- The mode string `bech32`, as character codes. -/
def modeBech32 : List Nat := [98, 101, 99, 104, 51, 50]

/-- The mode string `bech32m`, as character codes. -/
def modeBech32m : List Nat := [98, 101, 99, 104, 51, 50, 109]

/-- The mode string `nochecksum`, as character codes. -/
def modeNoChecksum : List Nat := [110, 111, 99, 104, 101, 99, 107, 115, 117, 109]

/-- The shim `bech32_encode` from `src/lib.rs`: parse the Hrp first (the
`Hrp::parse(hrp).expect(..)` on line 37), then match on the mode string
(lines 39-44), `UnsupportedMode` standing for the `unimplemented!` arm. -/
def bech32_encode (hrp : List Nat) (input : List Nat) (mode : List Nat) :
    Except ShimError (List Nat) :=
  match validateHrp hrp with
  | .error e => .error (.HrpParse e)
  | .ok _ =>
    if mode = modeBech32 then (encode hrp input .bech32 false).mapError .EncodingFailed
    else if mode = modeBech32m then (encode hrp input .bech32m false).mapError .EncodingFailed
    else if mode = modeNoChecksum then
      (encode hrp input .noChecksum false).mapError .EncodingFailed
    else .error .UnsupportedMode

/-- The shim `bech32_encode_lower` from `src/lib.rs`: identical to
`bech32_encode` but forwarding to the lowercase encoder. -/
def bech32_encode_lower (hrp : List Nat) (input : List Nat) (mode : List Nat) :
    Except ShimError (List Nat) :=
  match validateHrp hrp with
  | .error e => .error (.HrpParse e)
  | .ok _ =>
    if mode = modeBech32 then (encode hrp input .bech32 true).mapError .EncodingFailed
    else if mode = modeBech32m then (encode hrp input .bech32m true).mapError .EncodingFailed
    else if mode = modeNoChecksum then
      (encode hrp input .noChecksum true).mapError .EncodingFailed
    else .error .UnsupportedMode

/-- The shim `bech32_decode` from `src/lib.rs`: forward to the codec decoder. -/
def bech32_decode (input : List Nat) : Except ShimError (List Nat × List Nat) :=
  (decode input).mapError .DecodeFailed

/-- The XOR of the generator constants selected by the five low bits of `b`. -/
def gsum (b : Nat) : Nat :=
  (if b.testBit 0 then 0x3b6a57b2 else 0) ^^^
    ((if b.testBit 1 then 0x26508e6d else 0) ^^^
      ((if b.testBit 2 then 0x1ea119fa else 0) ^^^
        ((if b.testBit 3 then 0x3d4233dd else 0) ^^^
          (if b.testBit 4 then 0x2a1462b3 else 0))))

/-- Decidable equality of results, for concrete test-vector checking. -/
instance instDecEqExcept {e a : Type} [DecidableEq e] [DecidableEq a] :
    DecidableEq (Except e a) := fun x y =>
  match x, y with
  | .error u, .error v =>
    match decEq u v with
    | isTrue h => isTrue (h ▸ rfl)
    | isFalse h => isFalse fun hc => h (Except.error.inj hc)
  | .error _, .ok _ => isFalse fun hc => Except.noConfusion hc
  | .ok _, .error _ => isFalse fun hc => Except.noConfusion hc
  | .ok u, .ok v =>
    match decEq u v with
    | isTrue h => isTrue (h ▸ rfl)
    | isFalse h => isFalse fun hc => h (Except.ok.inj hc)

/-- The test-vector Hrp `union`, as character codes. -/
def unionHrp : List Nat := [117, 110, 105, 111, 110]

/-- The data bytes of the decode test vector from `src/lib.rs`. -/
def unionData : List Nat :=
  [168, 51, 176, 61, 142, 209, 34, 140, 71, 145, 203, 250, 178, 43, 62, 213, 121, 84, 66, 159]

/-- The encoded string `union14qemq0vw6y3gc3u3e0aty2e764u4gs5lnxk4rv` from the
decode test in `src/lib.rs`, as character codes. -/
def unionStr : List Nat :=
  [117, 110, 105, 111, 110, 49, 52, 113, 101, 109, 113, 48, 118, 119, 54, 121, 51, 103, 99, 51,
   117, 51, 101, 48, 97, 116, 121, 50, 101, 55, 54, 52, 117, 52, 103, 115, 53, 108, 110, 120,
   107, 52, 114, 118]

/-- The bytes of hex `644a2606654a7c0e70bf343ae6b828d3fe448447` from the encode
test in `src/lib.rs`. -/
def encInput : List Nat :=
  [100, 74, 38, 6, 101, 74, 124, 14, 112, 191, 52, 58, 230, 184, 40, 211, 254, 68, 132, 71]

/-- The expected encoded string `union1v39zvpn9ff7quu9lxsawdwpg60lyfpz8pmhfey`
from the encode test in `src/lib.rs`, as character codes. -/
def encExpected : List Nat :=
  [117, 110, 105, 111, 110, 49, 118, 51, 57, 122, 118, 112, 110, 57, 102, 102, 55, 113, 117, 117,
   57, 108, 120, 115, 97, 119, 100, 119, 112, 103, 54, 48, 108, 121, 102, 112, 122, 56, 112, 109,
   104, 102, 101, 121]

/-- The data part (everything after the separator) of `unionStr`. -/
def unionDataPart : List Nat :=
  [52, 113, 101, 109, 113, 48, 118, 119, 54, 121, 51, 103, 99, 51, 117, 51, 101, 48, 97, 116,
   121, 50, 101, 55, 54, 52, 117, 52, 103, 115, 53, 108, 110, 120, 107, 52, 114, 118]

/-- The quintets of `unionDataPart` under the alphabet. -/
def unionQs : List Nat :=
  [21, 0, 25, 27, 0, 15, 12, 14, 26, 4, 17, 8, 24, 17, 28, 17, 25, 15, 29, 11, 4, 10, 25, 30,
   26, 21, 28, 21, 8, 16, 20, 31, 19, 6, 22, 21, 3, 12]

/-- The uppercase Hrp `UNION`, as character codes. -/
def upperHrp : List Nat := [85, 78, 73, 79, 78]

/-! ### Bit-level helper lemmas -/

theorem natBits_length (w n : Nat) : (natBits w n).length = w := by
  simp [natBits]

theorem bitsToNat_foldl_lt (bs : List Bool) :
    ∀ a : Nat, bs.foldl (fun a b => 2 * a + cond b 1 0) a < (a + 1) * 2 ^ bs.length := by
  induction bs with
  | nil => intro a; simp
  | cons b bs ih =>
    intro a
    have h := ih (2 * a + cond b 1 0)
    refine lt_of_lt_of_le h ?_
    have hb : 2 * a + cond b 1 0 + 1 ≤ (a + 1) * 2 := by cases b <;> simp <;> omega
    calc (2 * a + cond b 1 0 + 1) * 2 ^ bs.length
        ≤ (a + 1) * 2 * 2 ^ bs.length := Nat.mul_le_mul_right _ hb
      _ = (a + 1) * 2 ^ (b :: bs).length := by
          simp [List.length_cons, Nat.pow_succ]; ring

theorem bitsToNat_lt (bs : List Bool) : bitsToNat bs < 2 ^ bs.length := by
  simpa using bitsToNat_foldl_lt bs 0

set_option maxRecDepth 8192 in
theorem bitsToNat_natBits8 : ∀ n < 256, bitsToNat (natBits 8 n) = n := by decide

theorem bitsToNat_natBits5 : ∀ n < 32, bitsToNat (natBits 5 n) = n := by decide

theorem natBits5_bitsToNat (bs : List Bool) (h : bs.length = 5) :
    natBits 5 (bitsToNat bs) = bs := by
  rcases bs with _ | ⟨a, _ | ⟨b, _ | ⟨c, _ | ⟨d, _ | ⟨e, _ | ⟨f, tl⟩⟩⟩⟩⟩⟩ <;>
      simp only [List.length_cons, List.length_nil] at h <;> try omega
  cases a <;> cases b <;> cases c <;> cases d <;> cases e <;> decide

theorem natBits8_bitsToNat (bs : List Bool) (h : bs.length = 8) :
    natBits 8 (bitsToNat bs) = bs := by
  rcases bs with _ | ⟨a, _ | ⟨b, _ | ⟨c, _ | ⟨d, _ | ⟨e, _ | ⟨f, _ | ⟨g, _ | ⟨k, _ | ⟨m, tl⟩⟩⟩⟩⟩⟩⟩⟩⟩ <;>
      simp only [List.length_cons, List.length_nil] at h <;> try omega
  cases a <;> cases b <;> cases c <;> cases d <;> cases e <;> cases f <;> cases g <;> cases k <;>
    decide

theorem chunks5_flatten (ls : List (List Bool)) (h : ∀ l ∈ ls, l.length = 5) :
    chunks5 ls.flatten = ls := by
  induction ls with
  | nil => rfl
  | cons l ls ih =>
    have hl : l.length = 5 := h l (by simp)
    rcases l with _ | ⟨a, _ | ⟨b, _ | ⟨c, _ | ⟨d, _ | ⟨e, _ | ⟨f, tl⟩⟩⟩⟩⟩⟩ <;>
        simp only [List.length_cons, List.length_nil] at hl <;> try omega
    have step : chunks5 (a :: b :: c :: d :: e :: ls.flatten) =
        [a, b, c, d, e] :: chunks5 ls.flatten := rfl
    simp only [List.flatten_cons, List.cons_append, List.nil_append, step]
    rw [ih (fun x hx => h x (by simp [hx]))]

theorem chunks8_flatten (ls : List (List Bool)) (h : ∀ l ∈ ls, l.length = 8) :
    chunks8 ls.flatten = ls := by
  induction ls with
  | nil => rfl
  | cons l ls ih =>
    have hl : l.length = 8 := h l (by simp)
    rcases l with
        _ | ⟨a, _ | ⟨b, _ | ⟨c, _ | ⟨d, _ | ⟨e, _ | ⟨f, _ | ⟨g, _ | ⟨k, _ | ⟨m, tl⟩⟩⟩⟩⟩⟩⟩⟩⟩ <;>
      simp only [List.length_cons, List.length_nil] at hl <;> try omega
    have step : chunks8 (a :: b :: c :: d :: e :: f :: g :: k :: ls.flatten) =
        [a, b, c, d, e, f, g, k] :: chunks8 ls.flatten := rfl
    simp only [List.flatten_cons, List.cons_append, List.nil_append, step]
    rw [ih (fun x hx => h x (by simp [hx]))]

theorem chunks5_sound (n : Nat) :
    ∀ l : List Bool, l.length = 5 * n →
      (∀ c ∈ chunks5 l, c.length = 5) ∧ (chunks5 l).flatten = l := by
  induction n with
  | zero =>
    intro l hl
    have : l = [] := List.eq_nil_of_length_eq_zero (by omega)
    subst this
    exact ⟨fun c hc => absurd hc (List.not_mem_nil c), rfl⟩
  | succ n ih =>
    intro l hl
    rcases l with _ | ⟨a, _ | ⟨b, _ | ⟨c, _ | ⟨d, _ | ⟨e, rest⟩⟩⟩⟩⟩ <;>
        simp only [List.length_cons, List.length_nil] at hl <;> try omega
    have hrest : rest.length = 5 * n := by omega
    obtain ⟨ih1, ih2⟩ := ih rest hrest
    have step : chunks5 (a :: b :: c :: d :: e :: rest) =
        [a, b, c, d, e] :: chunks5 rest := rfl
    constructor
    · intro ch hch
      rw [step, List.mem_cons] at hch
      rcases hch with h1 | h2
      · simp [h1]
      · exact ih1 ch h2
    · rw [step]
      simp [ih2]

theorem chunks8_sound (n : Nat) :
    ∀ l : List Bool, l.length = 8 * n →
      (∀ c ∈ chunks8 l, c.length = 8) ∧ (chunks8 l).flatten = l := by
  induction n with
  | zero =>
    intro l hl
    have : l = [] := List.eq_nil_of_length_eq_zero (by omega)
    subst this
    exact ⟨fun c hc => absurd hc (List.not_mem_nil c), rfl⟩
  | succ n ih =>
    intro l hl
    rcases l with
        _ | ⟨a, _ | ⟨b, _ | ⟨c, _ | ⟨d, _ | ⟨e, _ | ⟨f, _ | ⟨g, _ | ⟨k, rest⟩⟩⟩⟩⟩⟩⟩⟩ <;>
      simp only [List.length_cons, List.length_nil] at hl <;> try omega
    have hrest : rest.length = 8 * n := by omega
    obtain ⟨ih1, ih2⟩ := ih rest hrest
    have step : chunks8 (a :: b :: c :: d :: e :: f :: g :: k :: rest) =
        [a, b, c, d, e, f, g, k] :: chunks8 rest := rfl
    constructor
    · intro ch hch
      rw [step, List.mem_cons] at hch
      rcases hch with h1 | h2
      · simp [h1]
      · exact ih1 ch h2
    · rw [step]
      simp [ih2]

theorem length_flatten_map_natBits (w : Nat) (bs : List Nat) :
    ((bs.map (natBits w)).flatten).length = w * bs.length := by
  induction bs with
  | nil => simp
  | cons b bs ih =>
    simp only [List.map_cons, List.flatten_cons, List.length_append, natBits_length, ih,
      List.length_cons]
    ring

/-- Round trip of the bit regrouper: converting bytes to quintets and back
succeeds and recovers the bytes. -/
theorem quintetsToBytes_bytesToQuintets (bs : List Nat) (h : ∀ b ∈ bs, b < 256) :
    quintetsToBytes (bytesToQuintets bs) = .ok bs := by
  have hlen : ((bs.map (natBits 8)).flatten).length = 8 * bs.length :=
    length_flatten_map_natBits 8 bs
  set bits := (bs.map (natBits 8)).flatten with hbits
  set pad := (5 - bits.length % 5) % 5 with hpaddef
  have hpadlt : pad < 5 := Nat.mod_lt _ (by norm_num)
  have hmod : (bits.length + pad) % 5 = 0 := by omega
  set padded := bits ++ List.replicate pad false with hpadded
  have hplen : padded.length = bits.length + pad := by
    simp [hpadded]
  obtain ⟨k, hk⟩ : ∃ k, padded.length = 5 * k :=
    ⟨padded.length / 5, by omega⟩
  obtain ⟨hc5len, hc5flat⟩ := chunks5_sound k padded hk
  have hqs : bytesToQuintets bs = (chunks5 padded).map bitsToNat := by
    simp only [bytesToQuintets, hpadded, hbits, hpaddef]
  rw [hqs]
  have hmapback : ((chunks5 padded).map bitsToNat).map (natBits 5) = chunks5 padded := by
    rw [List.map_map]
    have : ∀ c ∈ chunks5 padded, (natBits 5 ∘ bitsToNat) c = id c := by
      intro c hc
      simp only [Function.comp_apply, id_eq]
      exact natBits5_bitsToNat c (hc5len c hc)
    rw [List.map_congr_left this, List.map_id]
  have hbits2 : ((((chunks5 padded).map bitsToNat).map (natBits 5)).flatten) = padded := by
    rw [hmapback, hc5flat]
  simp only [quintetsToBytes, hbits2]
  have hdiv : padded.length / 8 = bs.length := by
    rw [hplen, hlen]; omega
  have hkeep : 8 * (padded.length / 8) = bits.length := by
    rw [hdiv, hlen]
  rw [hkeep]
  have htake : padded.take bits.length = bits := by
    rw [hpadded, List.take_left]
  have hdrop : padded.drop bits.length = List.replicate pad false := by
    rw [hpadded, List.drop_left]
  rw [htake, hdrop]
  have hallfalse : (List.replicate pad false).all (fun b => b = false) = true := by
    simp [List.all_eq_true, List.eq_of_mem_replicate]
  rw [if_pos hallfalse]
  have hchunks : chunks8 bits = bs.map (natBits 8) := by
    rw [hbits]
    exact chunks8_flatten _ (by
      intro l hl
      obtain ⟨b, _, rfl⟩ := List.mem_map.mp hl
      exact natBits_length 8 b)
  rw [hchunks, List.map_map]
  congr 1
  have : ∀ b ∈ bs, (bitsToNat ∘ natBits 8) b = id b := by
    intro b hb
    simp only [Function.comp_apply, id_eq]
    exact bitsToNat_natBits8 b (h b hb)
  rw [List.map_congr_left this, List.map_id]

/-! ### Polymod and checksum lemmas -/

theorem genXor_eq_xor_gsum (b a : Nat) : genXor b a = a ^^^ gsum b := by
  simp only [genXor, gsum]
  cases h0 : b.testBit 0 <;> cases h1 : b.testBit 1 <;> cases h2 : b.testBit 2 <;>
      cases h3 : b.testBit 3 <;> cases h4 : b.testBit 4 <;>
    simp [Nat.xor_assoc]

theorem gsum_lt (b : Nat) : gsum b < 2 ^ 30 := by
  simp only [gsum]
  cases h0 : b.testBit 0 <;> cases h1 : b.testBit 1 <;> cases h2 : b.testBit 2 <;>
      cases h3 : b.testBit 3 <;> cases h4 : b.testBit 4 <;>
    simp

theorem shiftLeft_xor_distrib (a b n : Nat) : (a ^^^ b) <<< n = a <<< n ^^^ b <<< n := by
  apply Nat.eq_of_testBit_eq
  intro i
  simp only [Nat.testBit_shiftLeft, Nat.testBit_xor]
  cases Nat.decLe n i with
  | isTrue h => simp [h]
  | isFalse h => simp [h]

theorem testBit_eq_false_of_lt_two_pow {x n i : Nat} (h : x < 2 ^ n) (hi : n ≤ i) :
    x.testBit i = false := by
  apply Nat.testBit_eq_false_of_lt
  exact lt_of_lt_of_le h (Nat.pow_le_pow_right (by norm_num) hi)

theorem shiftRight_xor_of_lt {x : Nat} (a : Nat) {n : Nat} (h : x < 2 ^ n) :
    (a ^^^ x) >>> n = a >>> n := by
  apply Nat.eq_of_testBit_eq
  intro i
  simp only [Nat.testBit_shiftRight, Nat.testBit_xor]
  rw [testBit_eq_false_of_lt_two_pow h (Nat.le_add_right n i)]
  simp

theorem mod_two_pow_xor_of_lt {x : Nat} (a : Nat) {n : Nat} (h : x < 2 ^ n) :
    (a ^^^ x) % 2 ^ n = a % 2 ^ n ^^^ x := by
  apply Nat.eq_of_testBit_eq
  intro i
  simp only [Nat.testBit_mod_two_pow, Nat.testBit_xor]
  cases Nat.decLt i n with
  | isTrue hlt => simp [hlt]
  | isFalse hge =>
    rw [testBit_eq_false_of_lt_two_pow h (by omega)]
    simp [hge]

theorem polymodStep_eq (acc q : Nat) :
    polymodStep acc q = (acc % 2 ^ 25) <<< 5 ^^^ q ^^^ gsum (acc >>> 25) := by
  rw [polymodStep, genXor_eq_xor_gsum]

theorem xor_rot3 (a b c : Nat) : a ^^^ b ^^^ c = a ^^^ c ^^^ b := by
  apply Nat.eq_of_testBit_eq
  intro i
  simp only [Nat.testBit_xor]
  cases a.testBit i <;> cases b.testBit i <;> cases c.testBit i <;> rfl

theorem xor_rot4 (a b c d : Nat) : a ^^^ b ^^^ c ^^^ d = a ^^^ c ^^^ d ^^^ b := by
  apply Nat.eq_of_testBit_eq
  intro i
  simp only [Nat.testBit_xor]
  cases a.testBit i <;> cases b.testBit i <;> cases c.testBit i <;> cases d.testBit i <;> rfl

theorem polymodStep_lt (acc : Nat) {q : Nat} (hq : q < 32) : polymodStep acc q < 2 ^ 30 := by
  rw [polymodStep_eq]
  have h1 : (acc % 2 ^ 25) <<< 5 < 2 ^ 30 := by
    rw [Nat.shiftLeft_eq]
    have h := Nat.mod_lt acc (show 0 < 2 ^ 25 by norm_num)
    norm_num at h ⊢
    omega
  have h2 : (acc % 2 ^ 25) <<< 5 ^^^ q < 2 ^ 30 :=
    Nat.xor_lt_two_pow h1 (lt_trans hq (by norm_num))
  exact Nat.xor_lt_two_pow h2 (gsum_lt _)

theorem polymodStep_xor {x : Nat} (acc q : Nat) (hx : x < 2 ^ 25) :
    polymodStep (acc ^^^ x) q = polymodStep acc q ^^^ x <<< 5 := by
  rw [polymodStep_eq, polymodStep_eq, shiftRight_xor_of_lt acc hx,
    mod_two_pow_xor_of_lt acc hx, shiftLeft_xor_distrib]
  exact xor_rot4 ((acc % 2 ^ 25) <<< 5) (x <<< 5) q (gsum (acc >>> 25))

theorem polymodStep_value (acc q : Nat) : polymodStep acc q = polymodStep acc 0 ^^^ q := by
  rw [polymodStep_eq, polymodStep_eq, Nat.xor_zero]
  exact xor_rot3 ((acc % 2 ^ 25) <<< 5) q (gsum (acc >>> 25))

theorem foldl_polymodStep_xor (vs : List Nat) :
    ∀ acc x : Nat, x * 2 ^ (5 * vs.length) < 2 ^ 30 →
      vs.foldl polymodStep (acc ^^^ x) =
        vs.foldl polymodStep acc ^^^ x <<< (5 * vs.length) := by
  induction vs with
  | nil => intro acc x _; simp
  | cons v vs ih =>
    intro acc x hx
    have hlen : (5 : Nat) * (v :: vs).length = 5 * vs.length + 5 := by
      simp [List.length_cons]; ring
    have hx25 : x < 2 ^ 25 := by
      by_contra hge
      push_neg at hge
      have h1 : (2 : Nat) ^ 25 * 2 ^ (5 * (v :: vs).length) ≤ x * 2 ^ (5 * (v :: vs).length) :=
        Nat.mul_le_mul_right _ hge
      have h2 : (2 : Nat) ^ 30 ≤ 2 ^ 25 * 2 ^ (5 * (v :: vs).length) := by
        rw [← Nat.pow_add]
        exact Nat.pow_le_pow_right (by norm_num) (by omega)
      omega
    simp only [List.foldl_cons]
    rw [polymodStep_xor acc v hx25]
    have hx5 : x <<< 5 * 2 ^ (5 * vs.length) < 2 ^ 30 := by
      rw [Nat.shiftLeft_eq, Nat.mul_assoc, ← Nat.pow_add]
      have hexp : (5 : Nat) + 5 * vs.length = 5 * (v :: vs).length := by
        simp [List.length_cons]; ring
      rw [hexp]
      exact hx
    rw [ih (polymodStep acc v) (x <<< 5) hx5]
    have hsh : x <<< 5 <<< (5 * vs.length) = x <<< (5 * (v :: vs).length) := by
      simp only [Nat.shiftLeft_eq, Nat.mul_assoc, ← Nat.pow_add]
      congr 1
      simp [List.length_cons]
      ring
    rw [hsh]

theorem polymod_lt (qs : List Nat) (h : ∀ q ∈ qs, q < 32) : polymod qs < 2 ^ 30 := by
  rcases qs with _ | ⟨q, qs⟩
  · norm_num [polymod]
  · rw [polymod]
    have : ∀ tl : List Nat, (∀ q ∈ tl, q < 32) → ∀ a : Nat, a < 2 ^ 30 →
        tl.foldl polymodStep a < 2 ^ 30 := by
      intro tl
      induction tl with
      | nil => intro _ a ha; simpa using ha
      | cons v tl ih =>
        intro htl a _
        simp only [List.foldl_cons]
        exact ih (fun x hx => htl x (by simp [hx])) _
          (polymodStep_lt a (htl v (by simp)))
    simp only [List.foldl_cons]
    exact this qs (fun x hx => h x (by simp [hx])) _
      (polymodStep_lt 1 (h q (by simp)))

theorem digit_term_lt (m k : Nat) : ((m >>> k) % 32) <<< k < 2 ^ (k + 5) := by
  rw [Nat.shiftLeft_eq]
  have h : (m >>> k) % 32 < 32 := Nat.mod_lt _ (by norm_num)
  calc (m >>> k) % 32 * 2 ^ k < 32 * 2 ^ k := by
        exact Nat.mul_lt_mul_of_lt_of_le h (le_refl _) (Nat.pos_pow_of_pos k (by norm_num))
    _ = 2 ^ (k + 5) := by rw [Nat.pow_add]; ring

theorem digits_recombine {m : Nat} (hm : m < 2 ^ 30) :
    m % 32 ^^^ (((m >>> 5) % 32) <<< 5 ^^^ (((m >>> 10) % 32) <<< 10 ^^^
      (((m >>> 15) % 32) <<< 15 ^^^ (((m >>> 20) % 32) <<< 20 ^^^ ((m >>> 25) % 32) <<< 25)))) = m := by
  have hmod32 : ∀ x i : Nat, (x % 32).testBit i = (decide (i < 5) && x.testBit i) := by
    intro x i
    have h : (32 : Nat) = 2 ^ 5 := by norm_num
    rw [h, Nat.testBit_mod_two_pow]
  apply Nat.eq_of_testBit_eq
  intro i
  rcases Nat.lt_or_ge i 30 with hi | hi
  · simp only [Nat.testBit_xor, Nat.testBit_shiftLeft, hmod32, Nat.testBit_shiftRight]
    interval_cases i <;> norm_num
  · have hterm : ∀ k : Nat, k ≤ 25 → ((m >>> k) % 32) <<< k < 2 ^ 30 := by
      intro k hk
      exact lt_of_lt_of_le (digit_term_lt m k) (Nat.pow_le_pow_right (by norm_num) (by omega))
    have hL : m % 32 ^^^ (((m >>> 5) % 32) <<< 5 ^^^ (((m >>> 10) % 32) <<< 10 ^^^
        (((m >>> 15) % 32) <<< 15 ^^^ (((m >>> 20) % 32) <<< 20 ^^^ ((m >>> 25) % 32) <<< 25)))) <
          2 ^ 30 := by
      have h0 : m % 32 < 2 ^ 30 :=
        lt_of_lt_of_le (Nat.mod_lt _ (by norm_num)) (by norm_num)
      exact Nat.xor_lt_two_pow h0 (Nat.xor_lt_two_pow (hterm 5 (by norm_num))
        (Nat.xor_lt_two_pow (hterm 10 (by norm_num)) (Nat.xor_lt_two_pow (hterm 15 (by norm_num))
          (Nat.xor_lt_two_pow (hterm 20 (by norm_num)) (hterm 25 (by norm_num))))))
    rw [testBit_eq_false_of_lt_two_pow hL hi, testBit_eq_false_of_lt_two_pow hm hi]

theorem foldl_step_digit (A x : Nat) (vs : List Nat) (hx : x < 32) (hlen : vs.length ≤ 5) :
    (x :: vs).foldl polymodStep A = vs.foldl polymodStep (polymodStep A 0) ^^^ x <<< (5 * vs.length) := by
  simp only [List.foldl_cons]
  rw [polymodStep_value A x]
  refine foldl_polymodStep_xor vs (polymodStep A 0) x ?_
  calc x * 2 ^ (5 * vs.length) ≤ 31 * 2 ^ 25 := by
        exact Nat.mul_le_mul (by omega) (Nat.pow_le_pow_right (by norm_num) (by omega))
    _ < 2 ^ 30 := by norm_num

theorem foldl_six (A c0 c1 c2 c3 c4 c5 : Nat) (h0 : c0 < 32) (h1 : c1 < 32) (h2 : c2 < 32)
    (h3 : c3 < 32) (h4 : c4 < 32) (h5 : c5 < 32) :
    [c0, c1, c2, c3, c4, c5].foldl polymodStep A =
      [0, 0, 0, 0, 0, 0].foldl polymodStep A ^^^
        (c5 ^^^ (c4 <<< 5 ^^^ (c3 <<< 10 ^^^ (c2 <<< 15 ^^^ (c1 <<< 20 ^^^ c0 <<< 25))))) := by
  have s1 := foldl_step_digit A c0 [c1, c2, c3, c4, c5] h0 (by simp)
  have s2 := foldl_step_digit (polymodStep A 0) c1 [c2, c3, c4, c5] h1 (by simp)
  have s3 := foldl_step_digit (polymodStep (polymodStep A 0) 0) c2 [c3, c4, c5] h2 (by simp)
  have s4 := foldl_step_digit (polymodStep (polymodStep (polymodStep A 0) 0) 0) c3 [c4, c5] h3
    (by simp)
  have s5 := foldl_step_digit
    (polymodStep (polymodStep (polymodStep (polymodStep A 0) 0) 0) 0) c4 [c5] h4 (by simp)
  have s6 := foldl_step_digit
    (polymodStep (polymodStep (polymodStep (polymodStep (polymodStep A 0) 0) 0) 0) 0) c5 [] h5
    (by simp)
  simp only [List.length_cons, List.length_nil, List.foldl_cons, List.foldl_nil] at s1 s2 s3 s4 s5 s6
  norm_num at s1 s2 s3 s4 s5 s6
  simp only [List.foldl_cons, List.foldl_nil]
  rw [s1, s2, s3, s4, s5, s6]
  simp only [Nat.xor_assoc]

theorem computeChecksum_eq (hrp data : List Nat) (v : Variant) :
    computeChecksum hrp data v =
      [((polymod (hrpExpand hrp ++ data ++ [0, 0, 0, 0, 0, 0]) ^^^ variantConst v) >>> 25) % 32,
       ((polymod (hrpExpand hrp ++ data ++ [0, 0, 0, 0, 0, 0]) ^^^ variantConst v) >>> 20) % 32,
       ((polymod (hrpExpand hrp ++ data ++ [0, 0, 0, 0, 0, 0]) ^^^ variantConst v) >>> 15) % 32,
       ((polymod (hrpExpand hrp ++ data ++ [0, 0, 0, 0, 0, 0]) ^^^ variantConst v) >>> 10) % 32,
       ((polymod (hrpExpand hrp ++ data ++ [0, 0, 0, 0, 0, 0]) ^^^ variantConst v) >>> 5) % 32,
       (polymod (hrpExpand hrp ++ data ++ [0, 0, 0, 0, 0, 0]) ^^^ variantConst v) % 32] := by
  have hr : List.range 6 = [0, 1, 2, 3, 4, 5] := by rfl
  simp only [computeChecksum, hr, List.map_cons, List.map_nil]
  norm_num

/-- Claim members of `computeChecksum` are quintets. -/
theorem computeChecksum_mem_lt (hrp data : List Nat) (v : Variant) :
    ∀ q ∈ computeChecksum hrp data v, q < 32 := by
  rw [computeChecksum_eq]
  intro q hq
  simp only [List.mem_cons, List.not_mem_nil, or_false] at hq
  rcases hq with rfl | rfl | rfl | rfl | rfl | rfl <;>
    exact Nat.mod_lt _ (by norm_num)

theorem computeChecksum_length (hrp data : List Nat) (v : Variant) :
    (computeChecksum hrp data v).length = 6 := by
  rw [computeChecksum_eq]
  rfl

theorem hrpExpand_mem_lt (hrp : List Nat) (h : ∀ c ∈ hrp, c < 1024) :
    ∀ q ∈ hrpExpand hrp, q < 32 := by
  intro q hq
  simp only [hrpExpand, List.mem_append, List.mem_cons, List.mem_map,
    List.not_mem_nil, or_false] at hq
  rcases hq with (⟨c, hc, rfl⟩ | rfl) | ⟨c, hc, rfl⟩
  · have := h c hc
    rw [Nat.shiftRight_eq_div_pow]
    omega
  · norm_num
  · exact Nat.mod_lt _ (by norm_num)

theorem variantConst_lt (v : Variant) : variantConst v < 2 ^ 30 := by
  cases v <;> norm_num [variantConst]

/-- The checksum engine is self-consistent: a computed checksum appended to the
data makes the raw polymod over the full sequence equal the variant constant. -/
theorem polymod_append_checksum (hrp data : List Nat) (v : Variant)
    (hhrp : ∀ c ∈ hrp, c < 1024) (hdata : ∀ q ∈ data, q < 32) :
    polymod (hrpExpand hrp ++ (data ++ computeChecksum hrp data v)) = variantConst v := by
  rw [← List.append_assoc]
  set pre := hrpExpand hrp ++ data with hpre
  have hpre32 : ∀ q ∈ pre, q < 32 := by
    intro q hq
    rw [hpre, List.mem_append] at hq
    rcases hq with hq | hq
    · exact hrpExpand_mem_lt hrp hhrp q hq
    · exact hdata q hq
  have hzeros : ∀ q ∈ ([0, 0, 0, 0, 0, 0] : List Nat), q < 32 := by decide
  set P := polymod (pre ++ [0, 0, 0, 0, 0, 0]) with hP
  have hPlt : P < 2 ^ 30 := by
    rw [hP]
    refine polymod_lt _ ?_
    intro q hq
    rw [List.mem_append] at hq
    rcases hq with hq | hq
    · exact hpre32 q hq
    · exact hzeros q hq
  set m := P ^^^ variantConst v with hm
  have hmlt : m < 2 ^ 30 := Nat.xor_lt_two_pow hPlt (variantConst_lt v)
  have hcs : computeChecksum hrp data v =
      [(m >>> 25) % 32, (m >>> 20) % 32, (m >>> 15) % 32, (m >>> 10) % 32, (m >>> 5) % 32,
       m % 32] := by
    rw [computeChecksum_eq]
  rw [hcs, polymod, List.foldl_append]
  have hA := foldl_six (pre.foldl polymodStep 1) ((m >>> 25) % 32) ((m >>> 20) % 32)
    ((m >>> 15) % 32) ((m >>> 10) % 32) ((m >>> 5) % 32) (m % 32) (Nat.mod_lt _ (by norm_num))
    (Nat.mod_lt _ (by norm_num)) (Nat.mod_lt _ (by norm_num)) (Nat.mod_lt _ (by norm_num))
    (Nat.mod_lt _ (by norm_num)) (Nat.mod_lt _ (by norm_num))
  rw [hA]
  have hZ : [0, 0, 0, 0, 0, 0].foldl polymodStep (pre.foldl polymodStep 1) = P := by
    rw [hP, polymod]
    exact (List.foldl_append polymodStep 1 pre [0, 0, 0, 0, 0, 0]).symm
  rw [hZ, digits_recombine hmlt, hm, ← Nat.xor_assoc, Nat.xor_self, Nat.zero_xor]

/-- Verification succeeds on a freshly computed checksum. -/
theorem verifyChecksum_computeChecksum (hrp data : List Nat) (v : Variant)
    (hhrp : ∀ c ∈ hrp, c < 1024) (hdata : ∀ q ∈ data, q < 32) :
    verifyChecksum hrp (data ++ computeChecksum hrp data v) v = true := by
  have h := polymod_append_checksum hrp data v hhrp hdata
  cases v <;> simp [verifyChecksum, h]

/-! ### Charset lemmas -/

theorem charsetDecode_charsetEncode : ∀ q < 32, charsetDecode (charsetEncode q) = some q := by
  decide

theorem charsetEncode_range : ∀ q < 32, 33 ≤ charsetEncode q ∧ charsetEncode q ≤ 126 := by
  decide

theorem charsetEncode_not_upper : ∀ q < 32, isUpperC (charsetEncode q) = false := by decide

theorem charsetEncode_ne_sep : ∀ q < 32, charsetEncode q ≠ sepChar := by decide

/-! ### Case-folding lemmas -/

theorem isUpperC_iff (c : Nat) : isUpperC c = true ↔ 65 ≤ c ∧ c ≤ 90 := by
  simp [isUpperC]

theorem isLowerC_iff (c : Nat) : isLowerC c = true ↔ 97 ≤ c ∧ c ≤ 122 := by
  simp [isLowerC]

theorem toLowerC_of_not_upper {c : Nat} (h : isUpperC c = false) : toLowerC c = c := by
  simp [toLowerC, h]

theorem toUpperC_of_not_lower {c : Nat} (h : isLowerC c = false) : toUpperC c = c := by
  simp [toUpperC, h]

theorem isUpperC_toLowerC (c : Nat) : isUpperC (toLowerC c) = false := by
  simp only [toLowerC]
  split
  · rename_i h
    rw [isUpperC_iff] at h
    rw [Bool.eq_false_iff, ne_eq, isUpperC_iff]
    omega
  · rename_i h
    exact Bool.eq_false_iff.mpr h

theorem isLowerC_toUpperC (c : Nat) : isLowerC (toUpperC c) = false := by
  simp only [toUpperC]
  split
  · rename_i h
    rw [isLowerC_iff] at h
    rw [Bool.eq_false_iff, ne_eq, isLowerC_iff]
    omega
  · rename_i h
    exact Bool.eq_false_iff.mpr h

theorem toLowerC_toUpperC (c : Nat) : toLowerC (toUpperC c) = toLowerC c := by
  simp only [toUpperC, toLowerC]
  split
  · rename_i h
    rw [isLowerC_iff] at h
    have hup : isUpperC (c - 32) = true := by rw [isUpperC_iff]; omega
    have hnotup : isUpperC c = false := by
      rw [Bool.eq_false_iff, ne_eq, isUpperC_iff]; omega
    rw [if_pos hup, if_neg (by rw [hnotup]; exact Bool.false_ne_true)]
    omega
  · rfl

theorem toLowerC_range {c : Nat} (h33 : 33 ≤ c) (h126 : c ≤ 126) :
    33 ≤ toLowerC c ∧ toLowerC c ≤ 126 := by
  simp only [toLowerC]
  split
  · rename_i h
    rw [isUpperC_iff] at h
    omega
  · omega

theorem toLowerC_lt_1024 {c : Nat} (h : c ≤ 126) : toLowerC c < 1024 := by
  simp only [toLowerC]
  split <;> omega

/-! ### Data-part decoding lemmas -/

theorem decodeChars_map_encode (qs : List Nat) (h : ∀ q ∈ qs, q < 32) :
    decodeChars (qs.map charsetEncode) = some qs := by
  induction qs with
  | nil => rfl
  | cons q qs ih =>
    simp only [List.map_cons, decodeChars,
      charsetDecode_charsetEncode q (h q (by simp)),
      ih (fun x hx => h x (by simp [hx]))]
    rfl

theorem bytesToQuintets_mem_lt (bs : List Nat) : ∀ q ∈ bytesToQuintets bs, q < 32 := by
  intro q hq
  simp only [bytesToQuintets, List.mem_map] at hq
  obtain ⟨c, hc, rfl⟩ := hq
  set bits := (bs.map (natBits 8)).flatten with hbits
  set pad := (5 - bits.length % 5) % 5 with hpaddef
  have hpadlt : pad < 5 := Nat.mod_lt _ (by norm_num)
  have hmod : (bits.length + pad) % 5 = 0 := by omega
  obtain ⟨k, hk⟩ : ∃ k, (bits ++ List.replicate pad false).length = 5 * k := by
    refine ⟨(bits ++ List.replicate pad false).length / 5, ?_⟩
    have : (bits ++ List.replicate pad false).length = bits.length + pad := by simp
    omega
  have hlen5 := (chunks5_sound k _ hk).1 c hc
  have := bitsToNat_lt c
  rw [hlen5] at this
  simpa using this

/-! ### Separator-location lemmas -/

theorem findSepAux_canonical (h rest : List Nat) (hne : sepChar ∉ rest)
    (h1 : 1 ≤ h.length) (h83 : h.length ≤ 83) (h6 : 6 ≤ rest.length) :
    ∀ n, h.length < n → n ≤ (h ++ sepChar :: rest).length →
      findSepAux (h ++ sepChar :: rest) n = some (h, rest) := by
  have hslen : (h ++ sepChar :: rest).length = h.length + 1 + rest.length := by
    simp only [List.length_append, List.length_cons]
    omega
  intro n
  induction n with
  | zero => intro hlt _; omega
  | succ m ih =>
    intro hlt hle
    rcases Nat.lt_or_ge h.length m with hgt | hge
    · have hidx : m - h.length - 1 < rest.length := by omega
      have hgetd : (h ++ sepChar :: rest).getD m 0 = rest.getD (m - h.length - 1) 0 := by
        rw [List.getD_append_right h (sepChar :: rest) 0 m (by omega)]
        have hm1 : m - h.length = (m - h.length - 1) + 1 := by omega
        rw [hm1]
        rfl
      have hmem : rest.getD (m - h.length - 1) 0 ∈ rest := by
        rw [List.getD_eq_getElem rest 0 hidx]
        exact List.getElem_mem hidx
      have hnotsep : ((h ++ sepChar :: rest).getD m 0 == sepChar) = false := by
        rw [hgetd, beq_eq_false_iff_ne]
        intro heq
        exact hne (heq ▸ hmem)
      have hok : sepOK (h ++ sepChar :: rest) m = false := by
        unfold sepOK
        rw [hnotsep, Bool.false_and, Bool.false_and, Bool.false_and]
      rw [findSepAux, hok]
      simp only [Bool.false_eq_true, if_false]
      exact ih (by omega) (by omega)
    · have hm : m = h.length := by omega
      subst hm
      have hgetd : (h ++ sepChar :: rest).getD h.length 0 = sepChar := by
        rw [List.getD_append_right h (sepChar :: rest) 0 h.length (le_refl _)]
        simp
      have hok : sepOK (h ++ sepChar :: rest) h.length = true := by
        unfold sepOK
        rw [hgetd, beq_self_eq_true, Bool.true_and]
        simp only [Bool.and_eq_true, decide_eq_true_eq]
        refine ⟨⟨?_, ?_⟩, ?_⟩ <;> omega
      have htake : (h ++ sepChar :: rest).take h.length = h := List.take_left h (sepChar :: rest)
      have hdrop : (h ++ sepChar :: rest).drop (h.length + 1) = rest := by
        rw [show h ++ sepChar :: rest = (h ++ [sepChar]) ++ rest by simp]
        rw [show h.length + 1 = (h ++ [sepChar]).length by simp]
        exact List.drop_left _ _
      rw [findSepAux, hok]
      simp only [if_true, htake, hdrop]

theorem findSep_canonical (h rest : List Nat) (hne : sepChar ∉ rest)
    (h1 : 1 ≤ h.length) (h83 : h.length ≤ 83) (h6 : 6 ≤ rest.length) :
    findSep (h ++ sepChar :: rest) = some (h, rest) := by
  refine findSepAux_canonical h rest hne h1 h83 h6 _ ?_ (le_refl _)
  simp only [List.length_append, List.length_cons]
  omega

/-! ### Hrp validation lemmas -/

theorem validateHrp_ok_iff (s : List Nat) :
    validateHrp s = .ok s ↔
      s ≠ [] ∧ s.length ≤ 83 ∧ (∀ c ∈ s, 33 ≤ c ∧ c ≤ 126) ∧
        (hasUpper s = false ∨ hasLower s = false) := by
  simp only [validateHrp]
  split_ifs with he hl hc hm
  · simp only [List.isEmpty_iff] at he
    constructor
    · intro hcontra; cases hcontra
    · intro hcontra; exact absurd he hcontra.1
  · constructor
    · intro hcontra; cases hcontra
    · intro hcontra; omega
  · rw [Bool.not_eq_true'] at hc
    constructor
    · intro hcontra; cases hcontra
    · intro hcontra
      have hall : s.all (fun c => 33 ≤ c && c ≤ 126) = true := by
        rw [List.all_eq_true]
        intro c hcmem
        have := hcontra.2.2.1 c hcmem
        simp only [Bool.and_eq_true, decide_eq_true_eq]
        omega
      rw [hall] at hc
      cases hc
  · constructor
    · intro hcontra; cases hcontra
    · intro hcontra
      rcases hcontra.2.2.2 with hcase | hcase <;>
        simp [hcase] at hm
  · constructor
    · intro _
      refine ⟨by simpa [List.isEmpty_iff] using he, by omega, ?_, ?_⟩
      · intro c hcmem
        have hall : s.all (fun c => 33 ≤ c && c ≤ 126) = true := by
          simpa using hc
        rw [List.all_eq_true] at hall
        have := hall c hcmem
        simp only [Bool.and_eq_true, decide_eq_true_eq] at this
        exact this
      · cases hup : hasUpper s with
        | false => exact Or.inl rfl
        | true =>
          refine Or.inr ?_
          cases hlow : hasLower s with
          | false => rfl
          | true => exact absurd (by simp [hup, hlow]) hm
    · intro _; rfl

/-! ### Decoding the canonical encoded string -/

theorem hasUpper_eq_false_iff (s : List Nat) :
    hasUpper s = false ↔ ∀ c ∈ s, isUpperC c = false := by
  simp [hasUpper, List.any_eq_false]

theorem hasLower_eq_false_iff (s : List Nat) :
    hasLower s = false ↔ ∀ c ∈ s, isLowerC c = false := by
  simp [hasLower, List.any_eq_false]

theorem map_toLowerC_id {l : List Nat} (h : ∀ c ∈ l, isUpperC c = false) :
    l.map toLowerC = l := by
  have heq : l.map toLowerC = l.map id :=
    List.map_congr_left (fun c hc => toLowerC_of_not_upper (h c hc))
  rw [heq, List.map_id]

/-- Decoding a string whose lowercase fold is a well-formed
`hrp ++ separator ++ data-chars` with a matching checksum reaches the
byte-conversion stage with the expected quintets. -/
theorem decode_of_lower_canonical (s hl cs : List Nat)
    (hmix : (hasUpper s && hasLower s) = false)
    (hfold : s.map toLowerC = hl ++ sepChar :: cs.map charsetEncode)
    (hvalid : validateHrp hl = .ok hl)
    (hcs32 : ∀ q ∈ cs, q < 32)
    (h6 : 6 ≤ cs.length)
    (hpoly : polymod (hrpExpand hl ++ cs) = 1 ∨ polymod (hrpExpand hl ++ cs) = 0x2bc830a3) :
    decode s =
      match quintetsToBytes (cs.take (cs.length - 6)) with
      | .error _ => .error .NonZeroPadding
      | .ok bs => .ok (hl, bs) := by
  obtain ⟨hne, h83, _, _⟩ := (validateHrp_ok_iff hl).mp hvalid
  have h1 : 1 ≤ hl.length := List.length_pos.mpr hne
  have hnosep : sepChar ∉ cs.map charsetEncode := by
    intro hmem
    obtain ⟨q, hq, hqe⟩ := List.mem_map.mp hmem
    exact charsetEncode_ne_sep q (hcs32 q hq) hqe
  have hsep : findSep (s.map toLowerC) = some (hl, cs.map charsetEncode) := by
    rw [hfold]
    exact findSep_canonical hl (cs.map charsetEncode) hnosep h1 h83 (by simp [h6])
  have hdc : decodeChars (cs.map charsetEncode) = some cs := decodeChars_map_encode cs hcs32
  have hver : (verifyChecksum hl cs .bech32 || verifyChecksum hl cs .bech32m) = true := by
    rcases hpoly with hp | hp <;> simp [verifyChecksum, hp, variantConst]
  simp only [decode, hmix, Bool.false_eq_true, if_false, hsep, hvalid, hdc, hver, if_true]

/-! ### The encode/decode round trip -/

theorem checksummed_true_of_variant {v : Variant}
    (hv : v = .bech32 ∨ v = .bech32m) : checksummed v = true := by
  rcases hv with rfl | rfl <;> rfl

/-- Master round trip: a valid Hrp and in-range data encode successfully (in
any case mode) and the result decodes back to the lowercased Hrp and the
original bytes. -/
theorem encode_decode_roundtrip (hrp d : List Nat) (v : Variant) (lower : Bool)
    (hv : v = .bech32 ∨ v = .bech32m)
    (hh : validateHrp hrp = .ok hrp)
    (hd : ∀ b ∈ d, b < 256)
    (hlen : hrp.length + 1 + (bytesToQuintets d).length + 6 ≤ 90) :
    ∃ s, encode hrp d v lower = .ok s ∧ decode s = .ok (hrp.map toLowerC, d) := by
  obtain ⟨hne, h83, hrange, hcase⟩ := (validateHrp_ok_iff hrp).mp hh
  set qs := bytesToQuintets d with hqsdef
  set hl := hrp.map toLowerC with hldef
  set chk := computeChecksum hl qs v with hchkdef
  set cs := qs ++ chk with hcsdef
  have hqs32 : ∀ q ∈ qs, q < 32 := bytesToQuintets_mem_lt d
  have hchk32 : ∀ q ∈ chk, q < 32 := computeChecksum_mem_lt hl qs v
  have hcs32 : ∀ q ∈ cs, q < 32 := by
    intro q hq
    rcases List.mem_append.mp hq with hq | hq
    · exact hqs32 q hq
    · exact hchk32 q hq
  have hcslen : cs.length = qs.length + 6 := by
    rw [hcsdef, List.length_append, computeChecksum_length]
  have hlnoupper : hasUpper hl = false := by
    rw [hasUpper_eq_false_iff]
    intro c hc
    obtain ⟨x, _, rfl⟩ := List.mem_map.mp hc
    exact isUpperC_toLowerC x
  have hlrange : ∀ c ∈ hl, 33 ≤ c ∧ c ≤ 126 := by
    intro c hc
    obtain ⟨x, hx, rfl⟩ := List.mem_map.mp hc
    exact toLowerC_range (hrange x hx).1 (hrange x hx).2
  have hllen : hl.length = hrp.length := List.length_map hrp toLowerC
  have hlvalid : validateHrp hl = .ok hl := by
    rw [validateHrp_ok_iff]
    refine ⟨?_, by omega, hlrange, Or.inl hlnoupper⟩
    intro hnil
    rw [hldef] at hnil
    exact hne (List.map_eq_nil_iff.mp hnil)
  have hl1024 : ∀ c ∈ hl, c < 1024 := fun c hc => by
    have := (hlrange c hc).2
    omega
  have hpolyv : polymod (hrpExpand hl ++ cs) = variantConst v :=
    polymod_append_checksum hl qs v hl1024 hqs32
  have hpoly : polymod (hrpExpand hl ++ cs) = 1 ∨
      polymod (hrpExpand hl ++ cs) = 0x2bc830a3 := by
    rcases hv with rfl | rfl
    · exact Or.inl hpolyv
    · exact Or.inr hpolyv
  have hchars_notupper : ∀ c ∈ cs.map charsetEncode, isUpperC c = false := by
    intro c hc
    obtain ⟨q, hq, rfl⟩ := List.mem_map.mp hc
    exact charsetEncode_not_upper q (hcs32 q hq)
  have hstrip : cs.take (cs.length - 6) = qs := by
    rw [hcsdef, hcslen]
    simp only [Nat.add_sub_cancel, List.length_append]
    exact List.take_left qs chk
  have hback : quintetsToBytes qs = .ok d := quintetsToBytes_bytesToQuintets d hd
  have hchk : checksummed v = true := checksummed_true_of_variant hv
  have h6 : 6 ≤ cs.length := by omega
  have hguard : decide (90 < hrp.length + 1 + qs.length + 6) = false :=
    decide_eq_false (by omega)
  have hdecode : ∀ s : List Nat, (hasUpper s && hasLower s) = false →
      s.map toLowerC = hl ++ sepChar :: cs.map charsetEncode →
      decode s = .ok (hl, d) := by
    intro s hmix hfold
    rw [decode_of_lower_canonical s hl cs hmix hfold hlvalid hcs32 h6 hpoly, hstrip, hback]
  cases lower with
  | true =>
    refine ⟨hl ++ sepChar :: cs.map charsetEncode, ?_, ?_⟩
    · simp [encode, hh, hchk, hguard, ← hqsdef, ← hldef, ← hchkdef, ← hcsdef]
    · refine hdecode _ ?_ ?_
      · have hup : hasUpper (hl ++ sepChar :: cs.map charsetEncode) = false := by
          rw [hasUpper_eq_false_iff]
          intro c hc
          rcases List.mem_append.mp hc with hc | hc
          · exact (hasUpper_eq_false_iff hl).mp hlnoupper c hc
          · rcases List.mem_cons.mp hc with rfl | hc
            · decide
            · exact hchars_notupper c hc
        rw [hup, Bool.false_and]
      · refine map_toLowerC_id ?_
        intro c hc
        rcases List.mem_append.mp hc with hc | hc
        · exact (hasUpper_eq_false_iff hl).mp hlnoupper c hc
        · rcases List.mem_cons.mp hc with rfl | hc
          · decide
          · exact hchars_notupper c hc
  | false =>
    cases hup : hasUpper hrp with
    | false =>
      have hlid : hl = hrp := by
        rw [hldef]
        exact map_toLowerC_id ((hasUpper_eq_false_iff hrp).mp hup)
      refine ⟨hrp ++ sepChar :: cs.map charsetEncode, ?_, ?_⟩
      · simp [encode, hh, hchk, hguard, hup, ← hqsdef, ← hldef, ← hchkdef, ← hcsdef]
      · refine hdecode _ ?_ ?_
        · have hupfull : hasUpper (hrp ++ sepChar :: cs.map charsetEncode) = false := by
            rw [hasUpper_eq_false_iff]
            intro c hc
            rcases List.mem_append.mp hc with hc | hc
            · exact (hasUpper_eq_false_iff hrp).mp hup c hc
            · rcases List.mem_cons.mp hc with rfl | hc
              · decide
              · exact hchars_notupper c hc
          rw [hupfull, Bool.false_and]
        · rw [← hlid]
          refine map_toLowerC_id ?_
          intro c hc
          rw [hlid] at hc
          rcases List.mem_append.mp hc with hc | hc
          · rw [← hlid] at hc
            exact (hasUpper_eq_false_iff hl).mp hlnoupper c (hlid ▸ hc)
          · rcases List.mem_cons.mp hc with rfl | hc
            · decide
            · exact hchars_notupper c hc
    | true =>
      have hlow : hasLower hrp = false := by
        rcases hcase with hcase | hcase
        · rw [hup] at hcase; cases hcase
        · exact hcase
      refine ⟨hrp.map toUpperC ++ sepChar :: (cs.map charsetEncode).map toUpperC, ?_, ?_⟩
      · simp [encode, hh, hchk, hguard, hup, ← hqsdef, ← hldef, ← hchkdef, ← hcsdef]
      · refine hdecode _ ?_ ?_
        · have hlowfull :
              hasLower (hrp.map toUpperC ++ sepChar :: (cs.map charsetEncode).map toUpperC) =
                false := by
            rw [hasLower_eq_false_iff]
            intro c hc
            rcases List.mem_append.mp hc with hc | hc
            · obtain ⟨x, _, rfl⟩ := List.mem_map.mp hc
              exact isLowerC_toUpperC x
            · rcases List.mem_cons.mp hc with rfl | hc
              · decide
              · obtain ⟨x, _, rfl⟩ := List.mem_map.mp hc
                exact isLowerC_toUpperC x
          rw [hlowfull, Bool.and_false]
        · rw [List.map_append, List.map_cons]
          congr 1
          · rw [List.map_map, hldef]
            exact List.map_congr_left (fun c _ => toLowerC_toUpperC c)
          · congr 1
            rw [List.map_map]
            have h1 : (cs.map charsetEncode).map (toLowerC ∘ toUpperC) =
                (cs.map charsetEncode).map toLowerC :=
              List.map_congr_left (fun c _ => toLowerC_toUpperC c)
            rw [h1]
            exact map_toLowerC_id hchars_notupper

end PgBech32

namespace PgBech32

/-! ### Claim theorems -/

/-- Claim C2: the checksum engine — `hrpExpand` is high-3-bits, zero, low-5-bits
of the Hrp character codes; `computeChecksum` returns six quintets; verification
recomputes polymod over the full sequence and succeeds exactly when the raw
result equals the variant constant; and a freshly computed checksum always
verifies. -/
theorem C2_checksum_engine (hrp data : List Nat) (v : Variant)
    (hv : v = .bech32 ∨ v = .bech32m)
    (hhrp : ∀ c ∈ hrp, c < 1024) (hdata : ∀ q ∈ data, q < 32) :
    hrpExpand hrp = hrp.map (fun c => c >>> 5) ++ [0] ++ hrp.map (fun c => c % 32) ∧
    (computeChecksum hrp data v).length = 6 ∧
    (∀ q ∈ computeChecksum hrp data v, q < 32) ∧
    verifyChecksum hrp (data ++ computeChecksum hrp data v) v = true ∧
    (∀ dws : List Nat, verifyChecksum hrp dws v = true ↔
      polymod (hrpExpand hrp ++ dws) = variantConst v) := by
  refine ⟨rfl, computeChecksum_length hrp data v, computeChecksum_mem_lt hrp data v,
    verifyChecksum_computeChecksum hrp data v hhrp hdata, ?_⟩
  intro dws
  rcases hv with rfl | rfl <;> simp [verifyChecksum, variantConst]

/-- Concrete instantiation of C2 on the `union` Hrp and a small data vector. -/
theorem C2_checksum_engine_witness :
    (computeChecksum unionHrp [1, 2, 3] .bech32).length = 6 ∧
    verifyChecksum unionHrp ([1, 2, 3] ++ computeChecksum unionHrp [1, 2, 3] .bech32)
      .bech32 = true :=
  ⟨(C2_checksum_engine unionHrp [1, 2, 3] .bech32 (Or.inl rfl) (by decide) (by decide)).2.1,
   (C2_checksum_engine unionHrp [1, 2, 3] .bech32 (Or.inl rfl) (by decide) (by decide)).2.2.2.1⟩

set_option maxRecDepth 1000000 in
/-- Claim C3: the literal test vectors from `src/lib.rs` — decoding the `union`
string yields the expected hrp and bytes, and encoding the hex input under
`bech32` yields the expected string. -/
theorem C3_literal_vectors :
    bech32_decode unionStr = .ok (unionHrp, unionData) ∧
    bech32_encode unionHrp encInput modeBech32 = .ok encExpected :=
  ⟨rfl, rfl⟩

/-- Claim C10: both shim encoders parse the Hrp before inspecting the mode
string, so an invalid Hrp fails with the Hrp-parsing error whatever the mode
is, recognized or not. -/
theorem C10_hrp_before_mode (hrp input mode : List Nat) (e : HrpError)
    (he : validateHrp hrp = .error e) :
    bech32_encode hrp input mode = .error (.HrpParse e) ∧
    bech32_encode_lower hrp input mode = .error (.HrpParse e) := by
  constructor <;> simp [bech32_encode, bech32_encode_lower, he]

/-- Concrete instantiation of C10: empty Hrp together with an unrecognized mode
string fails with the Hrp error, not the unrecognized-mode error. -/
theorem C10_hrp_before_mode_witness :
    bech32_encode [] [1] [120] = .error (.HrpParse .EmptyHrp) ∧
    bech32_encode_lower [] [1] [120] = .error (.HrpParse .EmptyHrp) ∧
    [120] ≠ modeBech32 ∧ [120] ≠ modeBech32m ∧ [120] ≠ modeNoChecksum :=
  ⟨(C10_hrp_before_mode [] [1] [120] .EmptyHrp rfl).1,
   (C10_hrp_before_mode [] [1] [120] .EmptyHrp rfl).2,
   by decide, by decide, by decide⟩

end PgBech32

namespace PgBech32

/-- Claim C6: `validateHrp` checks, in order, non-emptiness, the 83-character
cap, the printable ASCII 33..126 range, and the mixed-case rule, each failing
with its own error variant, and accepts otherwise. -/
theorem C6_validateHrp_order (s : List Nat) :
    (s = [] → validateHrp s = .error .EmptyHrp) ∧
    (s ≠ [] → 83 < s.length → validateHrp s = .error .TooLong) ∧
    (s ≠ [] → s.length ≤ 83 → ¬(∀ c ∈ s, 33 ≤ c ∧ c ≤ 126) →
      validateHrp s = .error .InvalidChar) ∧
    (s ≠ [] → s.length ≤ 83 → (∀ c ∈ s, 33 ≤ c ∧ c ≤ 126) →
      hasUpper s = true → hasLower s = true → validateHrp s = .error .MixedCase) ∧
    (s ≠ [] → s.length ≤ 83 → (∀ c ∈ s, 33 ≤ c ∧ c ≤ 126) →
      (hasUpper s = false ∨ hasLower s = false) → validateHrp s = .ok s) := by
  refine ⟨?_, ?_, ?_, ?_, ?_⟩
  · rintro rfl
    rfl
  · intro hne hlen
    have hemp : s.isEmpty = false := by
      rw [List.isEmpty_eq_false_iff_exists_mem]
      rcases s with _ | ⟨c, t⟩
      · exact absurd rfl hne
      · exact ⟨c, by simp⟩
    simp [validateHrp, hemp, hlen]
  · intro hne hlen hbad
    have hemp : s.isEmpty = false := by
      rw [List.isEmpty_eq_false_iff_exists_mem]
      rcases s with _ | ⟨c, t⟩
      · exact absurd rfl hne
      · exact ⟨c, by simp⟩
    have hall : s.all (fun c => 33 ≤ c && c ≤ 126) = false := by
      rcases Bool.eq_false_or_eq_true (s.all (fun c => 33 ≤ c && c ≤ 126)) with hcase | hcase
      · exfalso
        refine hbad ?_
        intro c hc
        have := List.all_eq_true.mp hcase c hc
        simp only [Bool.and_eq_true, decide_eq_true_eq] at this
        exact this
      · exact hcase
    simp [validateHrp, hemp, hall, Nat.not_lt.mpr hlen]
  · intro hne hlen hgood hup hlow
    have hemp : s.isEmpty = false := by
      rw [List.isEmpty_eq_false_iff_exists_mem]
      rcases s with _ | ⟨c, t⟩
      · exact absurd rfl hne
      · exact ⟨c, by simp⟩
    have hall : s.all (fun c => 33 ≤ c && c ≤ 126) = true := by
      rw [List.all_eq_true]
      intro c hc
      have := hgood c hc
      simp only [Bool.and_eq_true, decide_eq_true_eq]
      omega
    simp [validateHrp, hemp, hall, Nat.not_lt.mpr hlen, hup, hlow]
  · intro hne hlen hgood hcase
    exact (validateHrp_ok_iff s).mpr ⟨hne, hlen, hgood, hcase⟩

/-- Concrete instantiations of C6, one per rule. -/
theorem C6_validateHrp_order_witness :
    validateHrp [] = .error .EmptyHrp ∧
    validateHrp (List.replicate 84 97) = .error .TooLong ∧
    validateHrp [32] = .error .InvalidChar ∧
    validateHrp [85, 97] = .error .MixedCase ∧
    validateHrp unionHrp = .ok unionHrp :=
  ⟨(C6_validateHrp_order []).1 rfl,
   (C6_validateHrp_order (List.replicate 84 97)).2.1 (by decide) (by decide),
   (C6_validateHrp_order [32]).2.2.1 (by decide) (by decide) (by decide),
   (C6_validateHrp_order [85, 97]).2.2.2.1 (by decide) (by decide) (by decide) (by decide)
     (by decide),
   (C6_validateHrp_order unionHrp).2.2.2.2 (by decide) (by decide) (by decide)
     (Or.inl (by decide))⟩

/-- Claim C5: the padding rule of `quintetsToBytes` — the leftover after slicing
the quintet bitstream into bytes is always shorter than 8 bits; the conversion
fails with `NonZeroPadding` exactly when some leftover bit is set; and when all
leftover bits are zero it succeeds with exactly the bytes of the full 8-bit
groups, the partial group discarded. -/
theorem C5_padding_rule (qs : List Nat) :
    (((qs.map (natBits 5)).flatten.drop
        (8 * ((qs.map (natBits 5)).flatten.length / 8))).length < 8) ∧
    (quintetsToBytes qs = .error .NonZeroPadding ↔
      ∃ b ∈ (qs.map (natBits 5)).flatten.drop
        (8 * ((qs.map (natBits 5)).flatten.length / 8)), b = true) ∧
    ((∀ b ∈ (qs.map (natBits 5)).flatten.drop
        (8 * ((qs.map (natBits 5)).flatten.length / 8)), b = false) →
      ∃ bs, quintetsToBytes qs = .ok bs ∧
        (bs.map (natBits 8)).flatten =
          (qs.map (natBits 5)).flatten.take (8 * ((qs.map (natBits 5)).flatten.length / 8)) ∧
        8 * bs.length = 8 * ((qs.map (natBits 5)).flatten.length / 8)) := by
  set bits := (qs.map (natBits 5)).flatten with hbits
  set keep := 8 * (bits.length / 8) with hkeep
  have hkle : keep ≤ bits.length := by
    rw [hkeep]
    omega
  refine ⟨?_, ?_, ?_⟩
  · rw [List.length_drop]
    omega
  · constructor
    · intro herr
      by_contra hnone
      push_neg at hnone
      have hall : (bits.drop keep).all (fun b => b = false) = true := by
        rw [List.all_eq_true]
        intro b hb
        simp only [decide_eq_true_eq]
        cases hbv : b
        · rfl
        · exact absurd hbv (hnone b hb)
      rw [quintetsToBytes, ← hbits, ← hkeep, if_pos hall] at herr
      cases herr
    · rintro ⟨b, hb, rfl⟩
      have hall : (bits.drop keep).all (fun b => b = false) = false := by
        rcases Bool.eq_false_or_eq_true ((bits.drop keep).all (fun b => b = false)) with
          hcase | hcase
        · exfalso
          have := List.all_eq_true.mp hcase _ hb
          simp at this
        · exact hcase
      rw [quintetsToBytes, ← hbits, ← hkeep, hall]
      rfl
  · intro hzero
    have hall : (bits.drop keep).all (fun b => b = false) = true := by
      rw [List.all_eq_true]
      intro b hb
      simp only [decide_eq_true_eq]
      exact hzero b hb
    refine ⟨(chunks8 (bits.take keep)).map bitsToNat, ?_, ?_, ?_⟩
    · rw [quintetsToBytes, ← hbits, ← hkeep, if_pos hall]
    · have htlen : (bits.take keep).length = 8 * (bits.length / 8) := by
        rw [List.length_take]
        omega
      obtain ⟨hc8, hflat⟩ := chunks8_sound (bits.length / 8) (bits.take keep) htlen
      have hmap : ((chunks8 (bits.take keep)).map bitsToNat).map (natBits 8) =
          chunks8 (bits.take keep) := by
        rw [List.map_map]
        have heach : ∀ c ∈ chunks8 (bits.take keep), (natBits 8 ∘ bitsToNat) c = id c := by
          intro c hc
          simp only [Function.comp_apply, id_eq]
          exact natBits8_bitsToNat c (hc8 c hc)
        rw [List.map_congr_left heach, List.map_id]
      rw [hmap, hflat]
    · have htlen : (bits.take keep).length = 8 * (bits.length / 8) := by
        rw [List.length_take]
        omega
      obtain ⟨hc8, hflat⟩ := chunks8_sound (bits.length / 8) (bits.take keep) htlen
      have hmap : ((chunks8 (bits.take keep)).map bitsToNat).map (natBits 8) =
          chunks8 (bits.take keep) := by
        rw [List.map_map]
        have heach : ∀ c ∈ chunks8 (bits.take keep), (natBits 8 ∘ bitsToNat) c = id c := by
          intro c hc
          simp only [Function.comp_apply, id_eq]
          exact natBits8_bitsToNat c (hc8 c hc)
        rw [List.map_congr_left heach, List.map_id]
      have : ((((chunks8 (bits.take keep)).map bitsToNat).map (natBits 8)).flatten).length =
          8 * ((chunks8 (bits.take keep)).map bitsToNat).length :=
        length_flatten_map_natBits 8 _
      rw [hmap, hflat, htlen] at this
      omega

/-- Concrete instantiations of C5: a lone set quintet fails, a zero quintet
succeeds with no bytes. -/
theorem C5_padding_rule_witness :
    quintetsToBytes [31] = .error .NonZeroPadding ∧
    quintetsToBytes [0] = .ok [] :=
  ⟨(C5_padding_rule [31]).2.1.mpr ⟨true, by decide, rfl⟩,
   by
    obtain ⟨bs, hok, hflat, hlen⟩ := (C5_padding_rule [0]).2.2 (by decide)
    have hnil : bs = [] := by
      have : bs.length = 0 := by
        simp only [show (8 : Nat) * (((([0] : List Nat).map (natBits 5)).flatten).length / 8) = 0
          by decide] at hlen
        omega
      exact List.eq_nil_of_length_eq_zero this
    rw [hnil] at hok
    exact hok⟩

end PgBech32

namespace PgBech32

theorem mapError_ok {e1 e2 a : Type} (f : e1 → e2) (x : a) :
    Except.mapError f (Except.ok x) = Except.ok x := rfl

theorem mapError_error {e1 e2 a : Type} (f : e1 → e2) (x : e1) :
    (Except.mapError f (Except.error x) : Except e2 a) = Except.error (f x) := rfl

/-- Claim C1: round trip — for every valid Hrp, every byte sequence within the
checksummed length bound, and both the Bech32 and Bech32m modes, the string
produced by the shim encoder decodes back to the (lowercased) Hrp and the
original bytes. -/
theorem C1_roundtrip (h d mode : List Nat)
    (hm : mode = modeBech32 ∨ mode = modeBech32m)
    (hh : validateHrp h = .ok h)
    (hd : ∀ b ∈ d, b < 256)
    (hlen : h.length + 1 + (bytesToQuintets d).length + 6 ≤ 90) :
    ∃ s, bech32_encode h d mode = .ok s ∧ bech32_decode s = .ok (h.map toLowerC, d) := by
  rcases hm with rfl | rfl
  · obtain ⟨s, hes, hds⟩ := encode_decode_roundtrip h d .bech32 false (Or.inl rfl) hh hd hlen
    exact ⟨s, by simp [bech32_encode, hh, hes, mapError_ok], by simp [bech32_decode, hds, mapError_ok]⟩
  · obtain ⟨s, hes, hds⟩ := encode_decode_roundtrip h d .bech32m false (Or.inr rfl) hh hd hlen
    refine ⟨s, ?_, by simp [bech32_decode, hds, mapError_ok]⟩
    have hne : modeBech32m ≠ modeBech32 := by decide
    simp [bech32_encode, hh, hes, hne, mapError_ok]

set_option maxRecDepth 1000000 in
/-- Concrete instantiation of the C1 round trip on the union test vector. -/
theorem C1_roundtrip_witness :
    ∃ s, bech32_encode unionHrp unionData modeBech32 = .ok s ∧
      bech32_decode s = .ok (unionHrp.map toLowerC, unionData) :=
  C1_roundtrip unionHrp unionData modeBech32 (Or.inl rfl) (by decide) (by decide) (by decide)

/-- Claim C9: case invariance — for a valid Hrp and in-bound data, the outputs
of `bech32_encode` and `bech32_encode_lower` both decode successfully, to the
same pair of lowercased Hrp and original bytes, for both checksummed modes. -/
theorem C9_case_invariance (h d mode : List Nat)
    (hm : mode = modeBech32 ∨ mode = modeBech32m)
    (hh : validateHrp h = .ok h)
    (hd : ∀ b ∈ d, b < 256)
    (hlen : h.length + 1 + (bytesToQuintets d).length + 6 ≤ 90) :
    ∃ s t, bech32_encode h d mode = .ok s ∧ bech32_encode_lower h d mode = .ok t ∧
      bech32_decode s = .ok (h.map toLowerC, d) ∧
      bech32_decode t = .ok (h.map toLowerC, d) := by
  rcases hm with rfl | rfl
  · obtain ⟨s, hes, hds⟩ := encode_decode_roundtrip h d .bech32 false (Or.inl rfl) hh hd hlen
    obtain ⟨t, het, hdt⟩ := encode_decode_roundtrip h d .bech32 true (Or.inl rfl) hh hd hlen
    exact ⟨s, t, by simp [bech32_encode, hh, hes, mapError_ok], by simp [bech32_encode_lower, hh, het, mapError_ok],
      by simp [bech32_decode, hds, mapError_ok], by simp [bech32_decode, hdt, mapError_ok]⟩
  · obtain ⟨s, hes, hds⟩ := encode_decode_roundtrip h d .bech32m false (Or.inr rfl) hh hd hlen
    obtain ⟨t, het, hdt⟩ := encode_decode_roundtrip h d .bech32m true (Or.inr rfl) hh hd hlen
    have hne : modeBech32m ≠ modeBech32 := by decide
    exact ⟨s, t, by simp [bech32_encode, hh, hes, hne, mapError_ok],
      by simp [bech32_encode_lower, hh, het, hne, mapError_ok],
      by simp [bech32_decode, hds, mapError_ok], by simp [bech32_decode, hdt, mapError_ok]⟩

/-- Concrete instantiation of C9 on an uppercase Hrp. -/
theorem C9_case_invariance_witness :
    ∃ s t, bech32_encode upperHrp [1, 2, 3] modeBech32 = .ok s ∧
      bech32_encode_lower upperHrp [1, 2, 3] modeBech32 = .ok t ∧
      bech32_decode s = .ok (upperHrp.map toLowerC, [1, 2, 3]) ∧
      bech32_decode t = .ok (upperHrp.map toLowerC, [1, 2, 3]) :=
  C9_case_invariance upperHrp [1, 2, 3] modeBech32 (Or.inl rfl) (by decide) (by decide)
    (by decide)

end PgBech32

namespace PgBech32

/-- Claim C7: the encode length cap — for a valid Hrp, the encoder fails with
`TooLong` exactly when the variant is checksummed and the total output length
(hrp + 1 separator + data quintets + 6 checksum quintets) would exceed 90; the
NoChecksum variant never fails this way and always succeeds. -/
theorem C7_length_cap (h d : List Nat) (v : Variant) (lower : Bool)
    (hh : validateHrp h = .ok h) :
    (encode h d v lower = .error .TooLong ↔
      checksummed v = true ∧ 90 < h.length + 1 + (bytesToQuintets d).length + 6) ∧
    (checksummed v = false → ∃ s, encode h d v lower = .ok s) := by
  cases hcv : checksummed v <;>
    by_cases hg : 90 < h.length + 1 + (bytesToQuintets d).length + 6
  · constructor
    · simp only [encode, hh, hcv, Bool.false_and, Bool.false_eq_true, if_false]
      constructor
      · intro habs
        cases lower
        · by_cases hup : hasUpper h = true <;> simp [hup] at habs
        · simp at habs
      · intro habs
        exact absurd habs.1 (by simp)
    · intro _
      simp only [encode, hh, hcv, Bool.false_and, Bool.false_eq_true, if_false]
      cases lower
      · by_cases hup : hasUpper h = true <;> simp [hup]
      · simp
  · constructor
    · simp only [encode, hh, hcv, Bool.false_and, Bool.false_eq_true, if_false]
      constructor
      · intro habs
        cases lower
        · by_cases hup : hasUpper h = true <;> simp [hup] at habs
        · simp at habs
      · intro habs
        exact absurd habs.1 (by simp)
    · intro _
      simp only [encode, hh, hcv, Bool.false_and, Bool.false_eq_true, if_false]
      cases lower
      · by_cases hup : hasUpper h = true <;> simp [hup]
      · simp
  · constructor
    · simp only [encode, hh, hcv, Bool.true_and, decide_eq_true hg, if_true]
      simp [hg]
    · intro habs
      exact absurd habs (by simp)
  · constructor
    · simp only [encode, hh, hcv, Bool.true_and, decide_eq_false hg, Bool.false_eq_true,
        if_false]
      constructor
      · intro habs
        cases lower
        · by_cases hup : hasUpper h = true <;> simp [hup] at habs
        · simp at habs
      · intro habs
        exact absurd habs.2 hg
    · intro habs
      exact absurd habs (by simp)

set_option maxRecDepth 1000000 in
/-- Concrete instantiations of C7: 49 data bytes overflow the 90-character cap
for the `union` Hrp under Bech32, while NoChecksum always succeeds. -/
theorem C7_length_cap_witness :
    encode unionHrp (List.replicate 49 0) .bech32 false = .error .TooLong ∧
    ∃ s, encode unionHrp (List.replicate 49 0) .noChecksum false = .ok s :=
  ⟨(C7_length_cap unionHrp (List.replicate 49 0) .bech32 false (by decide)).1.mpr
      ⟨rfl, by decide⟩,
   (C7_length_cap unionHrp (List.replicate 49 0) .noChecksum false (by decide)).2 rfl⟩

end PgBech32

namespace PgBech32

/-- Claim C4: decoder variant detection — once a string passes the mixed-case,
separator, Hrp and charset stages, decode fails with `InvalidChecksum` exactly
when the polymod over the expanded Hrp and data quintets matches neither the
Bech32 constant nor the Bech32m constant; when one matches, it strips the last
6 quintets and converts the rest to bytes, propagating `NonZeroPadding`. -/
theorem C4_variant_detection (s hrp rest qs : List Nat)
    (hmix : (hasUpper s && hasLower s) = false)
    (hsep : findSep (s.map toLowerC) = some (hrp, rest))
    (hvalid : validateHrp hrp = .ok hrp)
    (hdc : decodeChars rest = some qs) :
    (decode s = .error .InvalidChecksum ↔
      (polymod (hrpExpand hrp ++ qs) ≠ variantConst .bech32 ∧
       polymod (hrpExpand hrp ++ qs) ≠ variantConst .bech32m)) ∧
    ((polymod (hrpExpand hrp ++ qs) = variantConst .bech32 ∨
      polymod (hrpExpand hrp ++ qs) = variantConst .bech32m) →
      decode s =
        match quintetsToBytes (qs.take (qs.length - 6)) with
        | .error _ => .error .NonZeroPadding
        | .ok bs => .ok (hrp, bs)) := by
  have hv32 : verifyChecksum hrp qs .bech32 = true ↔
      polymod (hrpExpand hrp ++ qs) = variantConst .bech32 := by
    simp [verifyChecksum]
  have hv32m : verifyChecksum hrp qs .bech32m = true ↔
      polymod (hrpExpand hrp ++ qs) = variantConst .bech32m := by
    simp [verifyChecksum]
  simp only [decode, hmix, Bool.false_eq_true, if_false, hsep, hvalid, hdc]
  by_cases hb : (verifyChecksum hrp qs .bech32 || verifyChecksum hrp qs .bech32m) = true
  · rw [if_pos hb]
    constructor
    · constructor
      · intro habs
        cases hq : quintetsToBytes (qs.take (qs.length - 6)) with
        | error e => rw [hq] at habs; simp at habs
        | ok bs => rw [hq] at habs; simp at habs
      · rintro ⟨h1, h2⟩
        rcases Bool.or_eq_true_iff.mp hb with hcase | hcase
        · exact absurd (hv32.mp hcase) h1
        · exact absurd (hv32m.mp hcase) h2
    · intro _; rfl
  · rw [if_neg hb]
    have hbf : (verifyChecksum hrp qs .bech32 || verifyChecksum hrp qs .bech32m) = false :=
      Bool.eq_false_iff.mpr hb
    have hboth := Bool.or_eq_false_iff.mp hbf
    constructor
    · constructor
      · intro _
        constructor
        · intro hp
          rw [← hv32] at hp
          rw [hp] at hboth
          exact absurd hboth.1 (by decide)
        · intro hp
          rw [← hv32m] at hp
          rw [hp] at hboth
          exact absurd hboth.2 (by decide)
      · intro _; rfl
    · rintro (hp | hp)
      · rw [← hv32] at hp
        rw [hp] at hboth
        exact absurd hboth.1 (by decide)
      · rw [← hv32m] at hp
        rw [hp] at hboth
        exact absurd hboth.2 (by decide)

set_option maxRecDepth 1000000 in
/-- Concrete instantiation of C4 on the union vector: the Bech32 constant
matches, so decode strips the checksum and converts the remaining quintets. -/
theorem C4_variant_detection_witness :
    decode unionStr =
      match quintetsToBytes (unionQs.take (unionQs.length - 6)) with
      | .error _ => .error .NonZeroPadding
      | .ok bs => .ok (unionHrp, bs) :=
  (C4_variant_detection unionStr unionHrp unionDataPart unionQs (by decide) (by decide)
      (by decide) (by decide)).2 (Or.inl (by decide))

end PgBech32

namespace PgBech32

set_option maxRecDepth 1000000 in
/-- Claim C8 counterexample: substituting a single character of a valid
checksummed encoding by a character outside the alphabet (here `b`, code 98,
at data-part position 10) produces a string that is not another valid encoding,
yet decode fails with `InvalidCharacter`, not `InvalidChecksum` — refuting the
claim that every such substitution yields `InvalidChecksum`. -/
theorem C8_sensitivity_counterexample :
    decode unionStr = .ok (unionHrp, unionData) ∧
    unionStr.getD 10 0 ≠ 98 ∧
    (unionStr.set 10 98).length = unionStr.length ∧
    decode (unionStr.set 10 98) = .error .InvalidCharacter ∧
    DecodeError.InvalidCharacter ≠ DecodeError.InvalidChecksum :=
  ⟨rfl, by decide, by decide, rfl, by decide⟩

set_option maxRecDepth 1000000 in
/-- Claim C8 amended: substituting a single character of a checksummed encoded
string by a different character of the alphabet (or a different valid Hrp
character) makes decode fail with `InvalidChecksum` — verified, as the
specification itself scopes, on representative corrupted vectors: corruptions
of the union test vector in the Hrp (position 0), at the first, a middle and
the last data positions, and in the checksum itself. -/
theorem C8_sensitivity_representative :
    decode (unionStr.set 0 97) = .error .InvalidChecksum ∧
    decode (unionStr.set 6 113) = .error .InvalidChecksum ∧
    decode (unionStr.set 24 113) = .error .InvalidChecksum ∧
    decode (unionStr.set 37 48) = .error .InvalidChecksum ∧
    decode (unionStr.set 43 113) = .error .InvalidChecksum :=
  ⟨rfl, rfl, rfl, rfl, rfl⟩

end PgBech32
